import Mathlib

/-!
# Verification of the minitalk bit-banging signal protocol

Shallow embedding of the minitalk client/server pair (`srcs/client.c`,
`srcs/server.c`, `srcs/utils.c`).  The client transmits a message one bit
at a time using the two user signals; the server reconstructs bytes inside
its signal handler and acknowledges every bit.

Characters are modelled as natural numbers below 256 (the byte values the
C `char` holds), signal numbers as natural numbers, and the output of the
server as the list of bytes written to standard output.
-/

/-- Linux signal number of SIGUSR1 (bit value 1, also the acknowledgment). -/
def SIGUSR1 : Nat := 10

/-- Linux signal number of SIGUSR2 (bit value 0). -/
def SIGUSR2 : Nat := 12

/-! ## Client: bit emission (client.c, send_char_bits / send_message) -/

/-- `send_char_bits(pid, c)` body: the loop `bit = 7; while (bit >= 0)`
sends, for each bit position 7 down to 0, SIGUSR1 when `(c >> bit) & 1`
is 1 and SIGUSR2 otherwise.  The list is the sequence of signals emitted,
in emission order. -/
def send_char_bits (c : Nat) : List Nat :=
  [7, 6, 5, 4, 3, 2, 1, 0].map
    (fun bit => if (c >>> bit) &&& 1 = 1 then SIGUSR1 else SIGUSR2)

/-- `send_message(pid, msg)`: `while (*msg) send_char_bits(pid, *msg++);`
followed by `send_char_bits(pid, '\0')`.  The message is the list of its
(nonzero) byte values; the result is the full signal sequence including
the terminating all-zero unit. -/
def send_message : List Nat → List Nat
  | [] => send_char_bits 0
  | ch :: rest => send_char_bits ch ++ send_message rest

/-! ## Server: bit accumulation (server.c) -/

/-- `handle_received_bit(sig, &bit, &c)`: on SIGUSR1 set bit `*bit` of the
character (`*c |= 1 << *bit`), on any other signal clear it
(`*c &= ~(1 << *bit)`, truncated to the 8-bit char); then decrement the
bit index.  Returns the updated `(bit, c)` pair. -/
def handle_received_bit (sig : Nat) (bit : Int) (c : Nat) : Int × Nat :=
  let c' := if sig = SIGUSR1 then c ||| (1 <<< bit.toNat)
            else c &&& (255 ^^^ (1 <<< bit.toNat))
  (bit - 1, c')

/-- `process_character(&c, &bit)`: once all 8 bits are in (`*bit < 0`),
write a newline (byte 10) for the zero byte and the byte itself
otherwise, then reset `*bit = 7`, `*c = 0`.  Returns
`(bytes written, new c, new bit)`. -/
def process_character (c : Nat) (bit : Int) : List Nat × Nat × Int :=
  if bit < 0 then
    ((if c = 0 then [10] else [c]), 0, 7)
  else ([], c, bit)

/-- The server's mutable state: the static locals `bit` and `c` of
`signal_handler` plus the global `g_client_pid`. -/
structure SrvState where
  bit : Int
  c : Nat
  clientPid : Nat
deriving DecidableEq, Repr

/-- `signal_handler(sig, info, context)`: record `g_client_pid =
info->si_pid`, feed the bit to `handle_received_bit`, run
`process_character`, then `kill(g_client_pid, SIGUSR1)`.  Returns the new
state, the bytes written to standard output, and the acknowledgment
signals sent as `(target pid, signal)` pairs. -/
def signal_handler (sig si_pid : Nat) (s : SrvState) :
    SrvState × List Nat × List (Nat × Nat) :=
  let pid := si_pid
  let hb := handle_received_bit sig s.bit s.c
  let pc := process_character hb.2 hb.1
  (⟨pc.2.2, pc.2.1, pid⟩, pc.1, [(pid, SIGUSR1)])

/-- Run the server handler over a list of delivered `(signal, sender pid)`
events, collecting the bytes written and the acknowledgments sent. -/
def run_server : SrvState → List (Nat × Nat) →
    SrvState × List Nat × List (Nat × Nat)
  | s, [] => (s, [], [])
  | s, ev :: evs =>
    let r1 := signal_handler ev.1 ev.2 s
    let r2 := run_server r1.1 evs
    (r2.1, r1.2.1 ++ r2.2.1, r1.2.2 ++ r2.2.2)

/-- The pid-free core of one handler invocation: how `(bit, c)` evolves
and what is written.  `signal_handler` is this plus the pid bookkeeping. -/
def bit_step (st : Int × Nat) (sig : Nat) : (Int × Nat) × List Nat :=
  let hb := handle_received_bit sig st.1 st.2
  let pc := process_character hb.2 hb.1
  ((pc.2.2, pc.2.1), pc.1)

/-- `bit_step` iterated over a signal list. -/
def run_bits : (Int × Nat) → List Nat → (Int × Nat) × List Nat
  | st, [] => (st, [])
  | st, sg :: sgs =>
    let r1 := bit_step st sg
    let r2 := run_bits r1.1 sgs
    (r2.1, r1.2 ++ r2.2)

/-! ## Unit decoding seen as a fold (for the refinement claim) -/

/-- The accumulator evolution of one unit, as the handler computes it:
`handle_received_bit` folded from the reset state `(bit = 7, c = 0)`. -/
def decode_fold (sigs : List Nat) : Int × Nat :=
  sigs.foldl (fun st sg => handle_received_bit sg st.1 st.2) (7, 0)

/-- `handle_received_bit` with the clear-bit branch replaced by the
identity: a 0 bit leaves the accumulator untouched. -/
def handle_received_bit_noclear (sig : Nat) (bit : Int) (c : Nat) : Int × Nat :=
  (bit - 1, if sig = SIGUSR1 then c ||| (1 <<< bit.toNat) else c)

/-- The identity-on-0 variant folded from the reset state. -/
def decode_fold_noclear (sigs : List Nat) : Int × Nat :=
  sigs.foldl (fun st sg => handle_received_bit_noclear sg st.1 st.2) (7, 0)

/-- Follows the claim's words: the byte obtained by OR-ing `2 ^ position`
for exactly the positions at which SIGUSR1 was received (the i-th signal
of the unit carries bit position `7 - i`). -/
def decode_unit_or (sigs : List Nat) : Nat :=
  (List.range 8).foldl
    (fun acc i => if sigs[i]? = some SIGUSR1 then acc ||| (1 <<< (7 - i)) else acc) 0

/-! ## Sender flow control as a labelled state machine (client.c)

The body of `send_char_bits` interleaves with the asynchronous
`ack_handler`.  Per bit the main loop runs `g_ack_received = 0`
(`clearFlag`), `kill(pid, SIGUSR1/2)` (`emit`), then busy-polls
`while (!g_ack_received)` and proceeds only once it observes the flag set
(`observeAck`).  The handler may run at any moment and sets the flag
(`ackArrives`).  `clientStep` is the precise enabling relation of these
four events; an event that the code cannot perform in the current state
is `none`. -/

/-- Position of the main loop of `send_char_bits` within one bit. -/
inductive Phase where
  | idle
  | cleared
  | waiting
deriving DecidableEq, Repr

/-- Sender state: bits still to send (current bit at the head), loop
phase, and the `g_ack_received` flag. -/
structure ClientFSM where
  pending : List Nat
  phase : Phase
  ack : Bool
deriving DecidableEq, Repr

/-- Observable events of the sending loop and of `ack_handler`. -/
inductive SLabel where
  | clearFlag
  | emit (b : Nat)
  | ackArrives
  | observeAck
deriving DecidableEq, Repr

/-- One event of the sender: `clearFlag` is `g_ack_received = 0` at the
top of the per-bit loop body; `emit b` is the `kill` for the current bit
`b`; `ackArrives` is `ack_handler` running (`g_ack_received = 1`);
`observeAck` is the busy-poll loop reading the flag set and moving to the
next bit. -/
def clientStep (s : ClientFSM) (l : SLabel) : Option ClientFSM :=
  match l with
  | SLabel.clearFlag =>
    match s.pending, s.phase with
    | _ :: _, Phase.idle => some ⟨s.pending, Phase.cleared, false⟩
    | _, _ => none
  | SLabel.emit b =>
    match s.pending, s.phase with
    | b0 :: _, Phase.cleared =>
      if b = b0 then some ⟨s.pending, Phase.waiting, s.ack⟩ else none
    | _, _ => none
  | SLabel.ackArrives => some ⟨s.pending, s.phase, true⟩
  | SLabel.observeAck =>
    match s.pending, s.phase, s.ack with
    | _ :: rest, Phase.waiting, true => some ⟨rest, Phase.idle, true⟩
    | _, _, _ => none

/-- Run a sequence of events; `none` as soon as one is not enabled. -/
def runClient : ClientFSM → List SLabel → Option ClientFSM
  | s, [] => some s
  | s, l :: ls =>
    match clientStep s l with
    | some s1 => runClient s1 ls
    | none => none

/-- Recognizer for `emit` events. -/
def isEmit : SLabel → Bool
  | SLabel.emit _ => true
  | _ => false

/-- Recognizer for `observeAck` events. -/
def isObs : SLabel → Bool
  | SLabel.observeAck => true
  | _ => false

/-- Recognizer for `clearFlag` events. -/
def isClear : SLabel → Bool
  | SLabel.clearFlag => true
  | _ => false

/-- Number of bit emissions in a trace. -/
def nE (tr : List SLabel) : Nat := tr.countP isEmit

/-- Number of acknowledgment observations in a trace. -/
def nO (tr : List SLabel) : Nat := tr.countP isObs

/-- Number of flag clears in a trace. -/
def nC (tr : List SLabel) : Nat := tr.countP isClear

/-- Counting invariant tying the loop phase to the event counts of the
trace that led to it. -/
def phOk : Phase → Nat → Nat → Nat → Prop
  | Phase.idle, e, o, c => e = o ∧ c = e
  | Phase.cleared, e, o, c => e = o ∧ c = e + 1
  | Phase.waiting, e, o, c => e = o + 1 ∧ c = e

/-! ## Fallible transport (sys_error paths of client.c / server.c) -/

/-- `send_char_bits`/`send_message` with a fallible `kill`: `ok i` tells
whether the i-th `kill` call succeeds.  On the first failure the process
runs `sys_error` and exits (`false` flag = terminated with EXIT_FAILURE);
the failed attempt is recorded, nothing is retried, nothing follows.
Returns the `kill` attempts made, in order, and whether the transmission
completed. -/
def send_sigs_f (ok : Nat → Bool) : List Nat → Nat → List Nat × Bool
  | [], _ => ([], true)
  | sg :: rest, i =>
    if ok i then
      let r := send_sigs_f ok rest (i + 1)
      (sg :: r.1, r.2)
    else ([sg], false)

/-- `signal_handler` with fallible `write` and fallible ack `kill`.  A
failed `write` or a failed ack `kill` runs `sys_error`, which terminates
the server with EXIT_FAILURE (`Except.error 1`); in particular a failed
`write` means no acknowledgment is sent. -/
def signal_handler_f (writeOk ackOk : Bool) (sig si_pid : Nat) (s : SrvState) :
    Except Nat (SrvState × List Nat × List (Nat × Nat)) :=
  let pid := si_pid
  let hb := handle_received_bit sig s.bit s.c
  if hb.1 < 0 then
    if writeOk then
      if ackOk then
        Except.ok (⟨7, 0, pid⟩, (if hb.2 = 0 then [10] else [hb.2]), [(pid, SIGUSR1)])
      else Except.error 1
    else Except.error 1
  else
    if ackOk then Except.ok (⟨hb.1, hb.2, pid⟩, [], [(pid, SIGUSR1)])
    else Except.error 1

/-- A `sigaction` registration call (`setup_ack_signal` / `setup_signals`):
on failure the process runs `sys_error` and exits with EXIT_FAILURE. -/
def sigaction_register (ok : Bool) : Except Nat Unit :=
  if ok then Except.ok () else Except.error 1

/-! ## Client argument handling (utils.c / client.c main) -/

/-- The characters `isspace` accepts: blank and the five control
characters 9–13. -/
def isSpaceCh (ch : Nat) : Bool := ch = 32 || (9 ≤ ch && ch ≤ 13)

/-- Decimal digit test on a byte. -/
def isDigitCh (ch : Nat) : Bool := 48 ≤ ch && ch ≤ 57

/-- Leading-digit accumulation: consume decimal digits, stop at the
first non-digit. -/
def digitsVal : List Nat → Nat → Nat
  | [], acc => acc
  | d :: rest, acc =>
    if isDigitCh d then digitsVal rest (acc * 10 + (d - 48)) else acc

/-- Modelled from the spec: `ft_atoi` comes from the libft library, which
is not part of this repository's sources.  Per the spec it is the
"numeric-string-to-integer conversion for interpreting a process id
argument", i.e. standard `atoi` semantics: skip leading whitespace, read
an optional single sign, then leading decimal digits; anything else
contributes nothing. -/
def ft_atoi_core : List Nat → Int
  | [] => 0
  | d :: rest =>
    if d = 45 then -(digitsVal rest 0 : Int)
    else if d = 43 then (digitsVal rest 0 : Int)
    else (digitsVal (d :: rest) 0 : Int)

/-- `ft_atoi` itself: whitespace skipping then sign-and-digit reading. -/
def ft_atoi (s : List Nat) : Int := ft_atoi_core (s.dropWhile isSpaceCh)

/-- A first argument that is non-numeric: after optional whitespace and an
optional sign there is no decimal digit to read. -/
def nonNumeric_core : List Nat → Bool
  | [] => true
  | d :: rest =>
    if d = 45 || d = 43 then
      match rest with
      | [] => true
      | e :: _ => !(isDigitCh e)
    else !(isDigitCh d)

/-- Non-numeric first argument: no digit at the parse position. -/
def nonNumeric (s : List Nat) : Bool := nonNumeric_core (s.dropWhile isSpaceCh)

/-- `get_server_pid_from_input(argv)`: convert `argv[1]` with `ft_atoi`
and reject a non-positive result by exiting with EXIT_FAILURE. -/
def get_server_pid_from_input (argv1 : List Nat) : Except Nat Int :=
  let pid := ft_atoi argv1
  if pid ≤ 0 then Except.error 1 else Except.ok pid

/-- The confirmation line the client prints after a full transmission. -/
def confirmation_text : String := "Message sent successfully!\n"

/-- What a client process run produces: its exit code, the bit signals it
sent as `(target pid, signal)` pairs, and the `(file descriptor, text)`
writes of its success path (`ft_putstr_fd`).  Diagnostics on the error
stream are not modelled. -/
structure ClientOutcome where
  exitCode : Nat
  sends : List (Int × Nat)
  writes : List (Nat × String)
deriving DecidableEq, Repr

/-- `main` of client.c on the assumption that every `kill` succeeds:
`validate_input_client(argc)` exits with EXIT_FAILURE unless `argc == 3`;
`get_server_pid_from_input` exits with EXIT_FAILURE on a non-positive
conversion; otherwise the message and terminator are transmitted and the
confirmation is written with `ft_putstr_fd(..., STDIN_FILENO)`, i.e. to
file descriptor 0, before returning EXIT_SUCCESS. -/
def client_main (argc : Nat) (argv1 argv2 : List Nat) : ClientOutcome :=
  if argc ≠ 3 then ⟨1, [], []⟩
  else
    match get_server_pid_from_input argv1 with
    | Except.error code => ⟨code, [], []⟩
    | Except.ok pid =>
      ⟨0, (send_message argv2).map (fun sg => (pid, sg)),
       [(0, confirmation_text)]⟩

/-! # Theorems -/

/-! ## Basic lemmas about the server run -/

theorem run_server_append (l1 l2 : List (Nat × Nat)) (s : SrvState) :
    run_server s (l1 ++ l2) =
      ((run_server (run_server s l1).1 l2).1,
       (run_server s l1).2.1 ++ (run_server (run_server s l1).1 l2).2.1,
       (run_server s l1).2.2 ++ (run_server (run_server s l1).1 l2).2.2) := by
  induction l1 generalizing s with
  | nil => simp [run_server]
  | cons ev evs ih => simp [run_server, ih]

theorem run_server_map_pid (sigs : List Nat) (p : Nat) (s : SrvState) :
    run_server s (sigs.map (fun sg => (sg, p))) =
      (⟨(run_bits (s.bit, s.c) sigs).1.1, (run_bits (s.bit, s.c) sigs).1.2,
        if sigs.isEmpty then s.clientPid else p⟩,
       (run_bits (s.bit, s.c) sigs).2,
       List.replicate sigs.length (p, SIGUSR1)) := by
  induction sigs generalizing s with
  | nil => simp [run_server, run_bits]
  | cons sg sgs ih =>
    simp only [List.map_cons, run_server, run_bits, List.isEmpty_cons,
      List.length_cons, List.replicate_succ]
    rw [ih]
    simp [signal_handler, bit_step, ite_self]

set_option maxRecDepth 100000 in
/-- Decoding one full unit: feeding the 8 signals the client emits for a
byte `ch` into the handler core, starting from the reset state
`(bit = 7, c = 0)`, writes exactly the byte (newline for the zero byte)
and returns to the reset state. -/
theorem run_bits_unit : ∀ ch < 256,
    run_bits (7, 0) (send_char_bits ch) =
      ((7, 0), if ch = 0 then [10] else [ch]) := by
  decide

theorem send_char_bits_length (ch : Nat) : (send_char_bits ch).length = 8 := by
  simp [send_char_bits]

theorem send_char_bits_not_isEmpty (ch : Nat) :
    (send_char_bits ch).isEmpty = false := by
  simp [send_char_bits]

/-- One full unit at the server level: from a reset accumulator, the 8
signals for byte `ch` delivered by pid `p` write the byte (newline for
the zero byte), acknowledge each of the 8 bits once to `p`, and return
the accumulator to the reset state with `p` recorded. -/
theorem run_server_unit (ch p q : Nat) (h : ch < 256) :
    run_server ⟨7, 0, q⟩ ((send_char_bits ch).map (fun sg => (sg, p))) =
      (⟨7, 0, p⟩, (if ch = 0 then [10] else [ch]),
       List.replicate 8 (p, SIGUSR1)) := by
  rw [run_server_map_pid]
  simp [send_char_bits_length, send_char_bits_not_isEmpty, run_bits_unit ch h]

/-! ## C1: round trip -/

/-- C1: for every printable-ASCII message `S` (the empty message
included), delivering to the receiver's handler the exact signal sequence
the sender emits for `S` — each character's bits, then the terminator
unit — makes the receiver write exactly the characters of `S` in order
followed by one newline, with nothing dropped, duplicated or reordered
(and one acknowledgment per bit is sent to the sender). -/
theorem round_trip_exact (S : List Nat) (p q : Nat)
    (h : ∀ ch ∈ S, 32 ≤ ch ∧ ch ≤ 126) :
    run_server ⟨7, 0, q⟩ ((send_message S).map (fun sg => (sg, p))) =
      (⟨7, 0, p⟩, S ++ [10],
       List.replicate (8 * (S.length + 1)) (p, SIGUSR1)) := by
  induction S generalizing q with
  | nil =>
    simpa [send_message] using run_server_unit 0 p q (by norm_num)
  | cons ch rest ih =>
    have hch := h ch (List.mem_cons_self _ _)
    have hrest : ∀ c ∈ rest, 32 ≤ c ∧ c ≤ 126 :=
      fun c hc => h c (List.mem_cons_of_mem _ hc)
    have hlt : ch < 256 := by omega
    have hne : ch ≠ 0 := by omega
    simp only [send_message, List.map_append]
    rw [run_server_append, run_server_unit ch p q hlt]
    simp only [ih p hrest]
    rw [if_neg hne,
      show 8 * ((ch :: rest).length + 1) = 8 + 8 * (rest.length + 1) by
        simp [List.length_cons]; ring,
      List.replicate_add]
    simp

/-- Witness for C1: the message "Hi" from sender pid 5 reaches the
receiver as the bytes of "Hi" plus one newline. -/
theorem round_trip_exact_witness :
    run_server ⟨7, 0, 3⟩ ((send_message [72, 105]).map (fun sg => (sg, 5))) =
      (⟨7, 0, 5⟩, [72, 105] ++ [10], List.replicate 24 (5, SIGUSR1)) :=
  round_trip_exact [72, 105] 5 3 (by decide)

/-! ## C2: bit order and encoding -/

theorem send_message_eq_flatMap (S : List Nat) :
    send_message S = S.flatMap send_char_bits ++ send_char_bits 0 := by
  induction S with
  | nil => simp [send_message]
  | cons ch rest ih => simp [send_message, ih]

set_option maxRecDepth 100000 in
theorem send_char_bits_msb : ∀ ch < 256, ∀ i < 8,
    (send_char_bits ch)[i]? =
      some (if ch.testBit (7 - i) then SIGUSR1 else SIGUSR2) := by
  decide

set_option maxRecDepth 100000 in
theorem decode_fold_inverts : ∀ ch < 256,
    decode_fold (send_char_bits ch) = (-1, ch) := by
  decide

/-- C2: the sender emits each character's 8 bits most-significant first
(the i-th signal of a unit is SIGUSR1 exactly when bit `7 - i` is 1 and
SIGUSR2 otherwise), after the content it sends exactly one all-zero
terminator unit (8 times SIGUSR2), and the receiver, filling the same
positions in the same order from its reset state, reconstructs exactly
the byte. -/
theorem bit_encoding_msb_first : ∀ ch < 256, ∀ i < 8, ∀ S : List Nat,
    (send_char_bits ch)[i]? =
      some (if ch.testBit (7 - i) then SIGUSR1 else SIGUSR2)
    ∧ send_message S = S.flatMap send_char_bits ++ send_char_bits 0
    ∧ send_char_bits 0 = List.replicate 8 SIGUSR2
    ∧ decode_fold (send_char_bits ch) = (-1, ch) :=
  fun ch hch i hi S =>
    ⟨send_char_bits_msb ch hch i hi, send_message_eq_flatMap S,
     by decide, decode_fold_inverts ch hch⟩

/-- Witness for C2 at the byte 65 ('A') and bit index 1. -/
theorem bit_encoding_msb_first_witness :
    (send_char_bits 65)[1]? =
      some (if Nat.testBit 65 (7 - 1) then SIGUSR1 else SIGUSR2)
    ∧ send_message [65] = [65].flatMap send_char_bits ++ send_char_bits 0
    ∧ send_char_bits 0 = List.replicate 8 SIGUSR2
    ∧ decode_fold (send_char_bits 65) = (-1, 65) :=
  bit_encoding_msb_first 65 (by decide) 1 (by decide) [65]

/-! ## C5: sender id recording and acknowledgment -/

/-- C5: every handler invocation — also the ones that do not complete a
byte — records the delivering pid in `g_client_pid` and sends back
exactly one acknowledgment (SIGUSR1) addressed to that recorded pid. -/
theorem handler_records_and_acks (sig p : Nat) (s : SrvState) :
    (signal_handler sig p s).1.clientPid = p
    ∧ (signal_handler sig p s).2.2 = [(p, SIGUSR1)] :=
  ⟨rfl, rfl⟩

/-! ## C9: any non-SIGUSR1 signal is a 0 bit -/

/-- C9: the handler treats every signal number other than SIGUSR1 — not
only SIGUSR2 — as a 0 bit: the result is identical to receiving SIGUSR2,
the bit at the current position ends up cleared, and the bit-position
counter is decremented. -/
theorem non_sigusr1_is_zero_bit (sig : Nat) (c : Nat) (bit : Int)
    (hsig : sig ≠ SIGUSR1) (h0 : 0 ≤ bit) (h8 : bit < 8) :
    handle_received_bit sig bit c = handle_received_bit SIGUSR2 bit c
    ∧ (handle_received_bit sig bit c).1 = bit - 1
    ∧ ((handle_received_bit sig bit c).2).testBit bit.toNat = false := by
  have hb : bit.toNat < 8 := by omega
  refine ⟨?_, rfl, ?_⟩
  · have h12 : SIGUSR2 ≠ SIGUSR1 := by decide
    simp [handle_received_bit, hsig, h12]
  · simp only [handle_received_bit, if_neg hsig]
    have h1 : (255 ^^^ (1 <<< bit.toNat)).testBit bit.toNat = false := by
      rw [Nat.testBit_xor, Nat.one_shiftLeft, Nat.testBit_two_pow_self]
      rw [show (255 : Nat) = 2 ^ 8 - 1 by norm_num, Nat.testBit_two_pow_sub_one]
      simp [hb]
    rw [Nat.testBit_land, h1, Bool.and_false]

/-- Witness for C9: signal 17 (SIGCHLD) at bit position 7 on a full
accumulator acts exactly like SIGUSR2. -/
theorem non_sigusr1_is_zero_bit_witness :
    handle_received_bit 17 7 255 = handle_received_bit SIGUSR2 7 255
    ∧ (handle_received_bit 17 7 255).1 = 7 - 1
    ∧ ((handle_received_bit 17 7 255).2).testBit (Int.toNat 7) = false :=
  non_sigusr1_is_zero_bit 17 255 7 (by decide) (by decide) (by decide)

/-! ## C4: byte completion, output and reset -/

/-- C4: an invocation whose bit-position counter went below 0 writes
exactly one newline if the completed byte is zero and the byte itself
otherwise, and resets the counter to 7 and the accumulator to 0; an
invocation that does not complete a byte writes nothing and leaves the
accumulator alone; and after a terminator unit the receiver correctly
decodes an immediately following unit from the same or another sender. -/
theorem completion_output_and_reset (ch : Nat) :
    (∀ bit : Int, bit < 0 →
       process_character ch bit = ((if ch = 0 then [10] else [ch]), 0, 7))
    ∧ (∀ bit : Int, 0 ≤ bit → process_character ch bit = ([], ch, bit))
    ∧ (∀ c2 p p2 q : Nat, 0 < c2 → c2 < 256 →
         run_server ⟨7, 0, q⟩
           ((send_char_bits 0).map (fun sg => (sg, p)) ++
            (send_char_bits c2).map (fun sg => (sg, p2))) =
           (⟨7, 0, p2⟩, [10, c2],
            List.replicate 8 (p, SIGUSR1) ++ List.replicate 8 (p2, SIGUSR1))) := by
  refine ⟨fun bit hb => ?_, fun bit hb => ?_, fun c2 p p2 q h0 h256 => ?_⟩
  · simp [process_character, hb]
  · simp [process_character, not_lt.mpr hb]
  · rw [run_server_append, run_server_unit 0 p q (by norm_num)]
    simp only
    rw [run_server_unit c2 p2 p h256]
    simp [Nat.pos_iff_ne_zero.mp h0]

/-- Witness for C4: completion at byte 72 after a terminator unit. -/
theorem completion_output_and_reset_witness :
    process_character 72 (-1) = ([72], 0, 7)
    ∧ process_character 72 3 = ([], 72, 3)
    ∧ run_server ⟨7, 0, 9⟩
        ((send_char_bits 0).map (fun sg => (sg, 1)) ++
         (send_char_bits 72).map (fun sg => (sg, 2))) =
        (⟨7, 0, 2⟩, [10, 72],
         List.replicate 8 (1, SIGUSR1) ++ List.replicate 8 (2, SIGUSR1)) :=
  ⟨(completion_output_and_reset 72).1 (-1) (by decide),
   (completion_output_and_reset 72).2.1 3 (by decide),
   (completion_output_and_reset 72).2.2 72 1 2 9 (by decide) (by decide)⟩

/-! ## C10: decoding a unit is OR-accumulation -/

theorem handle_canon (s : Nat) (bit : Int) (c : Nat) :
    handle_received_bit (if s = SIGUSR1 then SIGUSR1 else SIGUSR2) bit c
      = handle_received_bit s bit c := by
  by_cases h : s = SIGUSR1 <;>
    simp [handle_received_bit, h, (by decide : ¬ (SIGUSR2 = SIGUSR1))]

theorem handle_noclear_canon (s : Nat) (bit : Int) (c : Nat) :
    handle_received_bit_noclear (if s = SIGUSR1 then SIGUSR1 else SIGUSR2) bit c
      = handle_received_bit_noclear s bit c := by
  by_cases h : s = SIGUSR1 <;>
    simp [handle_received_bit_noclear, h, (by decide : ¬ (SIGUSR2 = SIGUSR1))]

theorem foldl_handle_canon (sigs : List Nat) (st : Int × Nat) :
    List.foldl (fun st sg => handle_received_bit sg st.1 st.2) st
      (sigs.map (fun s => if s = SIGUSR1 then SIGUSR1 else SIGUSR2))
    = List.foldl (fun st sg => handle_received_bit sg st.1 st.2) st sigs := by
  induction sigs generalizing st with
  | nil => rfl
  | cons a rest ih =>
    simp only [List.map_cons, List.foldl_cons, handle_canon]
    exact ih _

theorem foldl_handle_noclear_canon (sigs : List Nat) (st : Int × Nat) :
    List.foldl (fun st sg => handle_received_bit_noclear sg st.1 st.2) st
      (sigs.map (fun s => if s = SIGUSR1 then SIGUSR1 else SIGUSR2))
    = List.foldl (fun st sg => handle_received_bit_noclear sg st.1 st.2) st sigs := by
  induction sigs generalizing st with
  | nil => rfl
  | cons a rest ih =>
    simp only [List.map_cons, List.foldl_cons, handle_noclear_canon]
    exact ih _

theorem decode_unit_or_canon (sigs : List Nat) :
    decode_unit_or (sigs.map (fun s => if s = SIGUSR1 then SIGUSR1 else SIGUSR2))
      = decode_unit_or sigs := by
  unfold decode_unit_or
  refine List.foldl_ext _ _ 0 (fun acc i _ => ?_)
  have hmap : (sigs.map (fun s => if s = SIGUSR1 then SIGUSR1 else SIGUSR2))[i]? =
      (sigs[i]?).map (fun s => if s = SIGUSR1 then SIGUSR1 else SIGUSR2) :=
    List.getElem?_map ..
  rw [hmap]
  cases hx : sigs[i]? with
  | none => simp
  | some x =>
    by_cases hxs : x = SIGUSR1 <;>
      simp [hxs, (by decide : ¬ (SIGUSR2 = SIGUSR1))]

set_option maxRecDepth 100000 in
theorem decode_canon_cases : ∀ b0 b1 b2 b3 b4 b5 b6 b7 : Bool,
    decode_fold ([b0, b1, b2, b3, b4, b5, b6, b7].map
        (fun bb => if bb then SIGUSR1 else SIGUSR2))
      = decode_fold_noclear ([b0, b1, b2, b3, b4, b5, b6, b7].map
        (fun bb => if bb then SIGUSR1 else SIGUSR2))
    ∧ (decode_fold ([b0, b1, b2, b3, b4, b5, b6, b7].map
        (fun bb => if bb then SIGUSR1 else SIGUSR2))).2
      = decode_unit_or ([b0, b1, b2, b3, b4, b5, b6, b7].map
        (fun bb => if bb then SIGUSR1 else SIGUSR2)) := by
  decide

/-- C10: since each unit starts from accumulator 0, the clear-bit branch
of `handle_received_bit` never changes the accumulator: decoding the 8
signals of a unit equals the variant whose 0-bit branch is the identity,
and the decoded byte is obtained by OR-ing `2 ^ position` for exactly
the positions at which SIGUSR1 was received. -/
theorem unit_decode_refines_or (sigs : List Nat) (h : sigs.length = 8) :
    decode_fold sigs = decode_fold_noclear sigs
    ∧ (decode_fold sigs).2 = decode_unit_or sigs := by
  match sigs, h with
  | [a, b, c, d, e, f, g, k], _ =>
    have key := decode_canon_cases (decide (a = SIGUSR1)) (decide (b = SIGUSR1))
      (decide (c = SIGUSR1)) (decide (d = SIGUSR1)) (decide (e = SIGUSR1))
      (decide (f = SIGUSR1)) (decide (g = SIGUSR1)) (decide (k = SIGUSR1))
    have hcan : ∀ x : Nat,
        (if decide (x = SIGUSR1) then SIGUSR1 else SIGUSR2)
          = (if x = SIGUSR1 then SIGUSR1 else SIGUSR2) := fun x => by
      by_cases hx : x = SIGUSR1 <;> simp [hx]
    have hlist : ([decide (a = SIGUSR1), decide (b = SIGUSR1), decide (c = SIGUSR1),
        decide (d = SIGUSR1), decide (e = SIGUSR1), decide (f = SIGUSR1),
        decide (g = SIGUSR1), decide (k = SIGUSR1)].map
          (fun bb => if bb then SIGUSR1 else SIGUSR2))
        = ([a, b, c, d, e, f, g, k].map
          (fun s => if s = SIGUSR1 then SIGUSR1 else SIGUSR2)) := by
      simp only [List.map_cons, List.map_nil, hcan]
    rw [hlist] at key
    rwa [show decode_fold ([a, b, c, d, e, f, g, k].map
          (fun s => if s = SIGUSR1 then SIGUSR1 else SIGUSR2))
        = decode_fold [a, b, c, d, e, f, g, k] from
          foldl_handle_canon [a, b, c, d, e, f, g, k] (7, 0),
      show decode_fold_noclear ([a, b, c, d, e, f, g, k].map
          (fun s => if s = SIGUSR1 then SIGUSR1 else SIGUSR2))
        = decode_fold_noclear [a, b, c, d, e, f, g, k] from
          foldl_handle_noclear_canon [a, b, c, d, e, f, g, k] (7, 0),
      decode_unit_or_canon [a, b, c, d, e, f, g, k]] at key

/-- Witness for C10 at the unit of byte 65. -/
theorem unit_decode_refines_or_witness :
    decode_fold (send_char_bits 65) = decode_fold_noclear (send_char_bits 65)
    ∧ (decode_fold (send_char_bits 65)).2 = decode_unit_or (send_char_bits 65) :=
  unit_decode_refines_or (send_char_bits 65) (by decide)

/-! ## C3: stop-and-wait flow control -/

theorem runClient_append (t1 t2 : List SLabel) (s : ClientFSM) :
    runClient s (t1 ++ t2) =
      match runClient s t1 with
      | some m => runClient m t2
      | none => none := by
  induction t1 generalizing s with
  | nil => simp [runClient]
  | cons l ls ih =>
    simp only [List.cons_append, runClient]
    cases clientStep s l with
    | none => rfl
    | some s1 => exact ih s1

theorem runClient_append_some (t1 t2 : List SLabel) (s s' : ClientFSM)
    (h : runClient s (t1 ++ t2) = some s') :
    ∃ m, runClient s t1 = some m ∧ runClient m t2 = some s' := by
  rw [runClient_append] at h
  cases hm : runClient s t1 with
  | none => rw [hm] at h; exact absurd h (by simp)
  | some m => rw [hm] at h; exact ⟨m, rfl, h⟩

theorem runClient_singleton (l : SLabel) (m s' : ClientFSM) :
    runClient m [l] = some s' ↔ clientStep m l = some s' := by
  cases h : clientStep m l <;> simp [runClient, h]

theorem clearFlag_inv (m s' : ClientFSM)
    (h : clientStep m SLabel.clearFlag = some s') :
    m.phase = Phase.idle ∧ m.pending ≠ []
    ∧ s' = ⟨m.pending, Phase.cleared, false⟩ := by
  rcases m with ⟨pend, ph, a⟩
  cases pend <;> cases ph <;> simp_all [clientStep]

theorem emit_inv (m s' : ClientFSM) (b : Nat)
    (h : clientStep m (SLabel.emit b) = some s') :
    m.phase = Phase.cleared ∧ s' = ⟨m.pending, Phase.waiting, m.ack⟩
    ∧ ∃ rest, m.pending = b :: rest := by
  rcases m with ⟨pend, ph, a⟩
  cases pend with
  | nil => cases ph <;> simp_all [clientStep]
  | cons b0 rest =>
    cases ph <;> simp_all [clientStep]

theorem ackArrives_inv (m s' : ClientFSM)
    (h : clientStep m SLabel.ackArrives = some s') :
    s' = ⟨m.pending, m.phase, true⟩ := by
  simp [clientStep] at h
  exact h.symm

theorem observeAck_inv (m s' : ClientFSM)
    (h : clientStep m SLabel.observeAck = some s') :
    m.phase = Phase.waiting ∧ m.ack = true
    ∧ ∃ b0 rest, m.pending = b0 :: rest ∧ s' = ⟨rest, Phase.idle, true⟩ := by
  rcases m with ⟨pend, ph, a⟩
  cases pend with
  | nil => cases ph <;> cases a <;> simp_all [clientStep]
  | cons b0 rest =>
    cases ph <;> cases a <;> simp_all [clientStep]
    exact ⟨b0, rest, ⟨rfl, rfl⟩, h.symm⟩

theorem count_snoc (p : SLabel → Bool) (t : List SLabel) (l : SLabel) :
    (t ++ [l]).countP p = t.countP p + (if p l then 1 else 0) := by
  simp [List.countP_append, List.countP_cons]

theorem clientInv (bits : List Nat) (tr : List SLabel) (s' : ClientFSM)
    (h : runClient ⟨bits, Phase.idle, false⟩ tr = some s') :
    phOk s'.phase (nE tr) (nO tr) (nC tr) ∧ s'.pending = bits.drop (nO tr) := by
  induction tr using List.reverseRecOn generalizing s' with
  | nil =>
    simp only [runClient, Option.some_inj] at h
    subst h
    simp [phOk, nE, nO, nC]
  | append_singleton t l ih =>
    obtain ⟨m, hm, hstep⟩ := runClient_append_some t [l] _ _ h
    rw [runClient_singleton] at hstep
    obtain ⟨hph, hpend⟩ := ih m hm
    cases l with
    | clearFlag =>
      obtain ⟨hidle, hne, hs'⟩ := clearFlag_inv m s' hstep
      rw [hidle] at hph
      simp only [phOk] at hph
      have he : nE (t ++ [SLabel.clearFlag]) = nE t := by
        simp [nE, count_snoc, isEmit]
      have ho : nO (t ++ [SLabel.clearFlag]) = nO t := by
        simp [nO, count_snoc, isObs]
      have hc : nC (t ++ [SLabel.clearFlag]) = nC t + 1 := by
        simp [nC, count_snoc, isClear]
      rw [he, ho, hc, hs']
      exact ⟨by simp only [phOk]; omega, by simpa using hpend⟩
    | emit b =>
      obtain ⟨hcl, hs', rest, hrest⟩ := emit_inv m s' b hstep
      rw [hcl] at hph
      simp only [phOk] at hph
      have he : nE (t ++ [SLabel.emit b]) = nE t + 1 := by
        simp [nE, count_snoc, isEmit]
      have ho : nO (t ++ [SLabel.emit b]) = nO t := by
        simp [nO, count_snoc, isObs]
      have hc : nC (t ++ [SLabel.emit b]) = nC t := by
        simp [nC, count_snoc, isClear]
      rw [he, ho, hc, hs']
      exact ⟨by simp only [phOk]; omega, by simpa using hpend⟩
    | ackArrives =>
      have hs' := ackArrives_inv m s' hstep
      have he : nE (t ++ [SLabel.ackArrives]) = nE t := by
        simp [nE, count_snoc, isEmit]
      have ho : nO (t ++ [SLabel.ackArrives]) = nO t := by
        simp [nO, count_snoc, isObs]
      have hc : nC (t ++ [SLabel.ackArrives]) = nC t := by
        simp [nC, count_snoc, isClear]
      rw [he, ho, hc, hs']
      exact ⟨hph, by simpa using hpend⟩
    | observeAck =>
      obtain ⟨hw, hack, b0, rest, hpd, hs'⟩ := observeAck_inv m s' hstep
      rw [hw] at hph
      simp only [phOk] at hph
      have he : nE (t ++ [SLabel.observeAck]) = nE t := by
        simp [nE, count_snoc, isEmit]
      have ho : nO (t ++ [SLabel.observeAck]) = nO t + 1 := by
        simp [nO, count_snoc, isObs]
      have hc : nC (t ++ [SLabel.observeAck]) = nC t := by
        simp [nC, count_snoc, isClear]
      rw [he, ho, hc, hs']
      refine ⟨by simp only [phOk]; omega, ?_⟩
      have : bits.drop (nO t + 1) = (bits.drop (nO t)).tail := by
        rw [List.tail_drop]
      rw [this, ← hpend, hpd]
      rfl

/-- C3: in every executable interleaving of the sending loop with the
acknowledgment handler, the acknowledgment flag is cleared before every
bit emission (emissions never outnumber clears), bit N+1 is never
emitted before the acknowledgment of bit N has been observed set
(between any two emissions there is an observation of the flag, and at
most one emission is ever unacknowledged), and the bits are consumed one
by one in order. -/
theorem flow_control_strict_alternation (bits : List Nat) (tr : List SLabel)
    (s' : ClientFSM)
    (h : runClient ⟨bits, Phase.idle, false⟩ tr = some s') :
    (∀ t1 t2, tr = t1 ++ t2 →
       nE t1 ≤ nO t1 + 1 ∧ nO t1 ≤ nE t1 ∧ nE t1 ≤ nC t1)
    ∧ (∀ t1 b t2 b' t3,
         tr = t1 ++ SLabel.emit b :: (t2 ++ SLabel.emit b' :: t3) →
         0 < nO t2 ∧ 0 < nC t2)
    ∧ s'.pending = bits.drop (nO tr) := by
  refine ⟨?_, ?_, (clientInv bits tr s' h).2⟩
  · intro t1 t2 ht
    subst ht
    obtain ⟨m, hm, -⟩ := runClient_append_some t1 t2 _ _ h
    have hinv := (clientInv bits t1 m hm).1
    cases hph : m.phase <;> rw [hph] at hinv <;> simp only [phOk] at hinv <;>
      omega
  · intro t1 b t2 b' t3 ht
    subst ht
    rw [show t1 ++ SLabel.emit b :: (t2 ++ SLabel.emit b' :: t3)
        = (t1 ++ [SLabel.emit b]) ++ (t2 ++ SLabel.emit b' :: t3) by simp] at h
    obtain ⟨m1, hm1, hrest⟩ := runClient_append_some _ _ _ _ h
    obtain ⟨m0, hm0, hstep1⟩ :=
      runClient_append_some t1 [SLabel.emit b] _ _ hm1
    rw [runClient_singleton] at hstep1
    obtain ⟨-, hs1, -⟩ := emit_inv m0 m1 b hstep1
    have hph1 : m1.phase = Phase.waiting := by rw [hs1]
    have hinv1 := (clientInv bits (t1 ++ [SLabel.emit b]) m1 hm1).1
    rw [hph1] at hinv1
    simp only [phOk] at hinv1
    obtain ⟨m2, hm2, hrest2⟩ :=
      runClient_append_some t2 (SLabel.emit b' :: t3) _ _ hrest
    have hq : runClient ⟨bits, Phase.idle, false⟩
        ((t1 ++ [SLabel.emit b]) ++ t2) = some m2 := by
      rw [runClient_append, hm1]
      exact hm2
    have hstep2 : ∃ m3, clientStep m2 (SLabel.emit b') = some m3 := by
      cases hcs : clientStep m2 (SLabel.emit b') with
      | some m3 => exact ⟨m3, rfl⟩
      | none =>
        rw [runClient, hcs] at hrest2
        exact absurd hrest2 (by simp)
    obtain ⟨m3, hm3⟩ := hstep2
    obtain ⟨hph2, -, -⟩ := emit_inv m2 m3 b' hm3
    have hinv2 := (clientInv bits ((t1 ++ [SLabel.emit b]) ++ t2) m2 hq).1
    rw [hph2] at hinv2
    simp only [phOk] at hinv2
    have hEq : nE ((t1 ++ [SLabel.emit b]) ++ t2)
        = nE (t1 ++ [SLabel.emit b]) + nE t2 := by
      simp only [nE, List.countP_append]
    have hOq : nO ((t1 ++ [SLabel.emit b]) ++ t2)
        = nO (t1 ++ [SLabel.emit b]) + nO t2 := by
      simp only [nO, List.countP_append]
    have hCq : nC ((t1 ++ [SLabel.emit b]) ++ t2)
        = nC (t1 ++ [SLabel.emit b]) + nC t2 := by
      simp only [nC, List.countP_append]
    rw [hEq, hOq, hCq] at hinv2
    omega

/-- Witness for C3: a complete two-bit transmission trace. -/
theorem flow_control_strict_alternation_witness :
    (∀ t1 t2, [SLabel.clearFlag, SLabel.emit 1, SLabel.ackArrives,
        SLabel.observeAck, SLabel.clearFlag, SLabel.emit 0,
        SLabel.ackArrives, SLabel.observeAck] = t1 ++ t2 →
       nE t1 ≤ nO t1 + 1 ∧ nO t1 ≤ nE t1 ∧ nE t1 ≤ nC t1)
    ∧ (∀ t1 b t2 b' t3,
         [SLabel.clearFlag, SLabel.emit 1, SLabel.ackArrives,
          SLabel.observeAck, SLabel.clearFlag, SLabel.emit 0,
          SLabel.ackArrives, SLabel.observeAck]
           = t1 ++ SLabel.emit b :: (t2 ++ SLabel.emit b' :: t3) →
         0 < nO t2 ∧ 0 < nC t2)
    ∧ (⟨[], Phase.idle, true⟩ : ClientFSM).pending =
        [1, 0].drop (nO [SLabel.clearFlag, SLabel.emit 1, SLabel.ackArrives,
          SLabel.observeAck, SLabel.clearFlag, SLabel.emit 0,
          SLabel.ackArrives, SLabel.observeAck]) :=
  flow_control_strict_alternation [1, 0]
    [SLabel.clearFlag, SLabel.emit 1, SLabel.ackArrives, SLabel.observeAck,
     SLabel.clearFlag, SLabel.emit 0, SLabel.ackArrives, SLabel.observeAck]
    ⟨[], Phase.idle, true⟩ (by decide)

/-! ## C6: invalid pid argument -/

theorem digitsVal_nondigit (d : Nat) (rest : List Nat) (acc : Nat)
    (h : isDigitCh d = false) : digitsVal (d :: rest) acc = acc := by
  simp [digitsVal, h]

theorem nonNumeric_core_atoi_core_zero (l : List Nat)
    (h : nonNumeric_core l = true) : ft_atoi_core l = 0 := by
  cases l with
  | nil => rfl
  | cons d rest =>
    by_cases h45 : d = 45
    · subst h45
      simp only [nonNumeric_core, nonNumeric] at h
      simp only [ft_atoi_core, if_pos rfl]
      simp at h
      cases rest with
      | nil => simp [digitsVal]
      | cons e t =>
        simp at h
        simp [digitsVal_nondigit e t 0 h]
    · by_cases h43 : d = 43
      · subst h43
        simp only [nonNumeric_core] at h
        simp only [ft_atoi_core, if_neg h45, if_pos rfl]
        simp at h
        cases rest with
        | nil => simp [digitsVal]
        | cons e t =>
          simp at h
          simp [digitsVal_nondigit e t 0 h]
      · simp only [nonNumeric_core] at h
        simp only [ft_atoi_core, if_neg h45, if_neg h43]
        simp [h45, h43] at h
        simp [digitsVal_nondigit d rest 0 h]

theorem nonNumeric_atoi_zero (s : List Nat) (h : nonNumeric s = true) :
    ft_atoi s = 0 :=
  nonNumeric_core_atoi_core_zero (s.dropWhile isSpaceCh) h

/-- C6: a client invocation whose first argument converts to zero or a
negative value, or is non-numeric (no digits where the number should
start, hence conversion result 0), exits with failure status having sent
no signal at all. -/
theorem invalid_pid_no_sends (argv1 argv2 : List Nat)
    (h : ft_atoi argv1 ≤ 0 ∨ nonNumeric argv1 = true) :
    client_main 3 argv1 argv2 = ⟨1, [], []⟩ := by
  have hle : ft_atoi argv1 ≤ 0 := by
    cases h with
    | inl h => exact h
    | inr h => rw [nonNumeric_atoi_zero argv1 h]
  simp [client_main, get_server_pid_from_input, hle]

/-- Witness for C6: the non-numeric argument "abc". -/
theorem invalid_pid_no_sends_witness :
    client_main 3 [97, 98, 99] [72, 105] = ⟨1, [], []⟩ :=
  invalid_pid_no_sends [97, 98, 99] [72, 105] (Or.inr (by decide))

/-! ## C7: the confirmation line and its file descriptor -/

/-- C7 (evidence of the code slip): on the successful-transmission path,
exemplified by `./client 42 "Hi"`, the client returns EXIT_SUCCESS but its
confirmation line is written with `ft_putstr_fd(..., STDIN_FILENO)`: the
only write goes to file descriptor 0 (standard input), and no write goes
to file descriptor 1 (standard output). -/
theorem confirmation_goes_to_fd0 :
    (client_main 3 [52, 50] [72, 105]).exitCode = 0
    ∧ (client_main 3 [52, 50] [72, 105]).writes = [(0, confirmation_text)]
    ∧ ∀ w ∈ (client_main 3 [52, 50] [72, 105]).writes, w.1 ≠ 1 := by
  refine ⟨rfl, rfl, ?_⟩
  intro w hw
  have hwr : (client_main 3 [52, 50] [72, 105]).writes
      = [(0, confirmation_text)] := rfl
  rw [hwr] at hw
  simp at hw
  subst hw
  decide

/-! ## C8: transport and I/O failures are fatal -/

theorem send_sigs_f_all_ok (sigs : List Nat) (ok : Nat → Bool) :
    ∀ i0, (∀ i, i < sigs.length → ok (i0 + i) = true) →
      send_sigs_f ok sigs i0 = (sigs, true) := by
  induction sigs with
  | nil => intro i0 _; rfl
  | cons sg rest ih =>
    intro i0 h
    have h0 : ok i0 = true := by simpa using h 0 (by simp)
    have hrec := ih (i0 + 1) (fun i hi => by
      rw [show i0 + 1 + i = i0 + (i + 1) by omega]
      exact h (i + 1) (by simpa using Nat.succ_lt_succ hi))
    simp [send_sigs_f, h0, hrec]

theorem send_sigs_f_first_fail (sigs : List Nat) (ok : Nat → Bool) :
    ∀ i0 j, j < sigs.length → ok (i0 + j) = false →
      (∀ i, i < j → ok (i0 + i) = true) →
      send_sigs_f ok sigs i0 = (sigs.take (j + 1), false) := by
  induction sigs with
  | nil =>
    intro i0 j hj _ _
    exact absurd hj (by simp)
  | cons sg rest ih =>
    intro i0 j hj hfail hpre
    cases j with
    | zero =>
      have h0 : ok i0 = false := by simpa using hfail
      simp [send_sigs_f, h0]
    | succ j' =>
      have h0 : ok i0 = true := by simpa using hpre 0 (Nat.succ_pos _)
      have hrec := ih (i0 + 1) j' (by simpa using Nat.lt_of_succ_lt_succ hj)
        (by rw [show i0 + 1 + j' = i0 + (j' + 1) by omega]; exact hfail)
        (fun i hi => by
          rw [show i0 + 1 + i = i0 + (i + 1) by omega]
          exact hpre (i + 1) (Nat.succ_lt_succ hi))
      simp [send_sigs_f, h0, hrec]

/-- C8: a failed bit `kill` on the sender aborts the transmission at
exactly that attempt — the attempts made are the successful ones plus the
single failed one, nothing is retried, nothing further is sent, and the
process ends in failure; with no failure everything is sent; a failed
output `write` on the receiver (on a byte-completing invocation) and a
failed acknowledgment `kill` each terminate the receiver with failure
status (a failed write suppresses the acknowledgment); a failed handler
registration terminates the process with failure status. -/
theorem transport_failures_fatal :
    (∀ (ok : Nat → Bool) (sigs : List Nat) (j : Nat),
       j < sigs.length → ok j = false → (∀ i, i < j → ok i = true) →
       send_sigs_f ok sigs 0 = (sigs.take (j + 1), false))
    ∧ (∀ (ok : Nat → Bool) (sigs : List Nat),
       (∀ i, i < sigs.length → ok i = true) →
       send_sigs_f ok sigs 0 = (sigs, true))
    ∧ (∀ (ackOk : Bool) (sig p : Nat) (s : SrvState), s.bit - 1 < 0 →
       signal_handler_f false ackOk sig p s = Except.error 1)
    ∧ (∀ (sig p : Nat) (w : Bool) (s : SrvState),
       signal_handler_f w false sig p s = Except.error 1)
    ∧ sigaction_register false = Except.error 1 := by
  refine ⟨?_, ?_, ?_, ?_, rfl⟩
  · intro ok sigs j hj hf hp
    have := send_sigs_f_first_fail sigs ok 0 j hj (by simpa using hf)
      (fun i hi => by simpa using hp i hi)
    simpa using this
  · intro ok sigs h
    exact send_sigs_f_all_ok sigs ok 0 (fun i hi => by simpa using h i hi)
  · intro ackOk sig p s hbit
    have hb : (handle_received_bit sig s.bit s.c).1 < 0 := by
      simpa [handle_received_bit] using hbit
    cases ackOk <;> simp [signal_handler_f, hb]
  · intro sig p w s
    by_cases hb : (handle_received_bit sig s.bit s.c).1 < 0 <;>
      cases w <;> simp [signal_handler_f, hb]

/-- Witness for C8: a kill failing on the second attempt stops after two
attempts; an all-ok run of two signals completes; write failure and ack
failure on the server are fatal; registration failure is fatal. -/
theorem transport_failures_fatal_witness :
    send_sigs_f (fun i => i == 0) [5, 5, 5] 0 = ([5, 5], false)
    ∧ send_sigs_f (fun _ => true) [5, 5] 0 = ([5, 5], true)
    ∧ signal_handler_f false true SIGUSR1 4 ⟨0, 7, 0⟩ = Except.error 1
    ∧ signal_handler_f true false SIGUSR1 4 ⟨5, 7, 0⟩ = Except.error 1
    ∧ sigaction_register false = Except.error 1 :=
  ⟨transport_failures_fatal.1 (fun i => i == 0) [5, 5, 5] 1 (by decide)
      (by decide) (by decide),
   transport_failures_fatal.2.1 (fun _ => true) [5, 5] (fun i _ => rfl),
   transport_failures_fatal.2.2.1 true SIGUSR1 4 ⟨0, 7, 0⟩ (by decide),
   transport_failures_fatal.2.2.2.1 SIGUSR1 4 true ⟨5, 7, 0⟩,
   transport_failures_fatal.2.2.2.2⟩
